import Mathlib

/-!
Verification of the lottery reconciliation / prediction-dispatch core.

The development shallowly embeds:
* the `/predict` dispatcher of `routes/api.js` (validation, strategy switch,
  response shaping);
* the game registry of `game_config.js`;
* `App.initFetch`'s jackpot refresh, `App.processAndRender`'s normalization,
  `App.checkSystemStatus`'s freshness classification and `App.getNextDrawDate`
  from `app.js`;
* the merge engine (`mergeLotteryData`) and the pack expansion engine
  (`PredictionEngine.expandPack`), whose bodies live in modules outside the
  visible sources; these are modelled from the specification and marked so.

JavaScript machine values relevant to the claims are modelled by `JsVal`
(scalars only; the feeds and requests exercised here carry no nested
structures in the positions we model).  Dates are modelled as integer day
numbers; monetary amounts as integers; drawn numbers as rationals, because
JavaScript `Number` coercion can produce non-integral values.
-/

/-- A scalar JavaScript value, as can appear in a request's `mode` field or in
a metadata object.  `vNum` carries an integer: the dispatcher claims only need
truthiness of numbers, for which integers suffice. -/
inductive JsVal where
  | vUndef
  | vNull
  | vBool (b : Bool)
  | vNum (n : Int)
  | vStr (s : String)
deriving DecidableEq, Repr

/-- JavaScript truthiness of a scalar value (`undefined`, `null`, `false`,
`0`, `""` are falsy). -/
def jsTruthy : JsVal → Bool
  | .vUndef => false
  | .vNull => false
  | .vBool b => b
  | .vNum n => if n = 0 then false else true
  | .vStr s => if s = "" then false else true

/-- Truthiness of an optional string request field (`undefined` and `""` are
falsy, any other string truthy). -/
def truthyOptStr : Option String → Bool
  | none => false
  | some s => if s = "" then false else true

/-- Last-wins lookup in a JavaScript-object association list: later entries
shadow earlier ones, matching object-spread update semantics. -/
def objGet : List (String × JsVal) → String → Option JsVal
  | [], _ => none
  | p :: rest, k =>
    match objGet rest k with
    | some v => some v
    | none => if p.1 = k then some p.2 else none

/-- One game's static definition, from `game_config.js`.  `special` is absent
(`none`) for the games whose config omits it; the UI-only `subModes` field is
not modelled. -/
structure GameDef where
  gtype : String
  range : Nat
  count : Nat
  zone2 : Option Nat
  special : Option Bool
  drawDays : Option (List Nat)
deriving DecidableEq, Repr

/-- `GAME_CONFIG.GAMES` from `game_config.js`. -/
def GAMES : List (String × GameDef) :=
  [("大樂透", ⟨"lotto", 49, 6, none, some true, some [2, 5]⟩),
   ("威力彩", ⟨"power", 38, 6, some 8, none, some [1, 4]⟩),
   ("今彩539", ⟨"lotto", 39, 5, none, some false, some [1, 2, 3, 4, 5, 6]⟩),
   ("3星彩", ⟨"digit", 9, 3, none, none, some [1, 2, 3, 4, 5, 6]⟩),
   ("4星彩", ⟨"digit", 9, 4, none, none, some [1, 2, 3, 4, 5, 6]⟩)]

/-- `GAME_CONFIG.GAMES[game]`. -/
def lookupGame (g : String) : Option GameDef :=
  (GAMES.find? (fun p => decide (p.1 = g))).map (fun p => p.2)

/-- `Object.keys(GAME_CONFIG.GAMES)`, the enumerated legal games reported on
an unknown-game validation failure. -/
def gamesList : List String := GAMES.map (fun p => p.1)

/-- The registered strategy identifiers reported on an unknown-school
validation failure (`['balance', 'stat', 'pattern', 'ai']`). -/
def schoolsList : List String := ["balance", "stat", "pattern", "ai"]

/-- One tagged number of a single selection (`{val, tag}`), per the
PredictionResult contract. -/
structure TaggedNum where
  val : Int
  tag : Option String
deriving DecidableEq, Repr

/-- A single-selection strategy result: tagged numbers, an optional group
reason, and a metadata object.  The metadata is an arbitrary association list
because strategies are opaque to the dispatcher, which spreads whatever keys
they return. -/
structure SingleSel where
  numbers : List TaggedNum
  groupReason : Option String
  metadata : List (String × JsVal)
deriving DecidableEq, Repr

/-- Runtime outcome of invoking one strategy: it may throw (caught by the
dispatcher's try/catch), return an array of selections, or return a single
selection object. -/
inductive StrategyOutcome where
  | throws
  | arr (tickets : List SingleSel)
  | obj (r : SingleSel)
deriving DecidableEq, Repr

/-- The normalized parameter bundle the dispatcher hands to a strategy
(`params` in `routes/api.js`). -/
structure AlgoParams where
  data : List JsVal
  gameDef : GameDef
  subModeId : JsVal
  excludeNumbers : List JsVal
  random : Bool
  mode : String
  setIndex : Int
  packMode : Option String
  targetCount : Nat
  seed : JsVal
  userData : JsVal
deriving Repr

/-- The four strategy implementations, external collaborators of the
dispatcher. -/
structure Algos where
  algoBalance : AlgoParams → StrategyOutcome
  algoStat : AlgoParams → StrategyOutcome
  algoPattern : AlgoParams → StrategyOutcome
  algoAI : AlgoParams → StrategyOutcome

/-- A `/predict` request body.  `game` and `school` are string-or-absent;
`mode` is an arbitrary scalar value, since nothing in the handler forces it to
be a string before `mode.startsWith` is evaluated. -/
structure PredictRequest where
  game : Option String
  school : Option String
  mode : JsVal
  subMode : JsVal
  userData : JsVal
  historyData : Option (List JsVal)
  excludeNumbers : Option (List JsVal)
  setIndex : Option Int
  seed : JsVal
deriving Repr

/-- The observable response of the `/predict` handler: the three 400
validation errors, the pack (array) shape, the single-selection shape, or the
generic 500 failure produced by the surrounding try/catch. -/
inductive PredictResponse where
  | missingParams (required : List String)
  | invalidGame (game : String) (available : List String)
  | invalidSchool (school : String) (available : List String)
  | pack (tickets : List SingleSel) (game school mode : String) (count : Nat)
      (timestamp : String)
  | single (numbers : List TaggedNum) (groupReason : Option String)
      (metadata : List (String × JsVal))
  | internalError
deriving DecidableEq, Repr

/-- Whether a response carries a `tickets` field. -/
def hasTickets : PredictResponse → Bool
  | .pack _ _ _ _ _ _ => true
  | _ => false

/-- Whether a response is one of the 400 validation (`InvalidRequest`)
errors. -/
def isInvalidRequest : PredictResponse → Bool
  | .missingParams _ => true
  | .invalidGame _ _ => true
  | .invalidSchool _ _ => true
  | _ => false

/-- The `params` object built at lines 61–73 of the handler, for a string
`mode`. -/
def mkParams (req : PredictRequest) (gd : GameDef) (ms : String) : AlgoParams :=
  { data := req.historyData.getD []
    gameDef := gd
    subModeId := req.subMode
    excludeNumbers := req.excludeNumbers.getD []
    random := if ms = "random" then true else false
    mode := ms
    setIndex := req.setIndex.getD 0
    packMode := if ms.startsWith "pack" then some ms else none
    targetCount := 5
    seed := req.seed
    userData := req.userData }

/-- The `switch (school)` of the handler: which strategy a school name
selects, `none` for the unsupported-school default branch. -/
def selectAlgo (A : Algos) (school : String) :
    Option (AlgoParams → StrategyOutcome) :=
  if school = "balance" then some A.algoBalance
  else if school = "stat" then some A.algoStat
  else if school = "pattern" then some A.algoPattern
  else if school = "ai" then some A.algoAI
  else none

/-- The request-derived metadata entries the dispatcher writes after spreading
`result.metadata` (so they shadow same-named strategy keys). -/
def dispatcherMeta (g s ms now : String) : List (String × JsVal) :=
  [("game", .vStr g), ("school", .vStr s), ("mode", .vStr ms),
   ("timestamp", .vStr now), ("version", .vStr "2.0.0")]

/-- The `POST /predict` handler of `routes/api.js`.  `now` stands for
`new Date().toISOString()`.  Control flow follows the source: presence check,
game lookup, `params` construction (whose `mode.startsWith('pack')` throws for
a truthy non-string `mode`, landing in the catch block), the school switch,
then response shaping by the runtime type of the strategy result. -/
def predict (A : Algos) (now : String) (req : PredictRequest) :
    PredictResponse :=
  if !truthyOptStr req.game || !truthyOptStr req.school || !jsTruthy req.mode
  then
    .missingParams ["game", "school", "mode"]
  else
    let g := req.game.getD ""
    match lookupGame g with
    | none => .invalidGame g gamesList
    | some gd =>
      match req.mode with
      | .vStr ms =>
        let s := req.school.getD ""
        let params := mkParams req gd ms
        match selectAlgo A s with
        | none => .invalidSchool s schoolsList
        | some f =>
          match f params with
          | .throws => .internalError
          | .arr ts => .pack ts g s ms ts.length now
          | .obj r =>
            .single r.numbers r.groupReason
              (r.metadata ++ dispatcherMeta g s ms now)
      | _ => .internalError

/-! ## Jackpot refresh (`App.initFetch`, Phase 2) -/

/-- One live-feed record as the jackpot refresh sees it: a draw date (integer
day number) and an optional jackpot amount. -/
structure LiveRec where
  date : Int
  jackpot : Option Int
deriving DecidableEq, Repr

/-- One step of a stable descending-by-date insertion: the new record goes
after every already-placed record with date ≥ its own, matching the stable
`sort((a, b) => new Date(b.date) - new Date(a.date))`. -/
def insertByDateDesc : List LiveRec → LiveRec → List LiveRec
  | [], r => [r]
  | x :: xs, r =>
    if r.date ≤ x.date then x :: insertByDateDesc xs r else r :: x :: xs

/-- Stable sort of live records by date, newest first. -/
def sortByDateDesc (l : List LiveRec) : List LiveRec :=
  l.foldl insertByDateDesc []

/-- The per-game jackpot refresh of `App.initFetch` lines 244–252: sort the
game's live records newest-first, look at `sorted[0]` only, and overwrite the
table entry exactly when that record's jackpot is truthy and positive. -/
def updateJackpot (prev : Option Int) (recs : List LiveRec) : Option Int :=
  if recs.isEmpty then prev
  else
    match (sortByDateDesc recs).head? with
    | none => prev
    | some latest =>
      match latest.jackpot with
      | some j => if 0 < j then some j else prev
      | none => prev

/-- Modelled from the spec: the jackpot-selection rule as the specification
states it — the entry becomes the jackpot of the most-recent-by-date record
among those carrying a truthy positive jackpot, and is unchanged when no such
record exists.  Used only to compare the specified rule with `updateJackpot`,
the rule the code implements. -/
def claimJackpot (prev : Option Int) (recs : List LiveRec) : Option Int :=
  match (sortByDateDesc (recs.filter (fun r =>
      match r.jackpot with
      | some j => decide (0 < j)
      | none => false))).head? with
  | some r => r.jackpot
  | none => prev

/-! ## Record normalization (`App.processAndRender`) -/

/-- A raw scalar element of an incoming `numbers` array, before `Number()`
coercion. -/
inductive RawVal where
  | num (q : ℚ)
  | null
  | undef
  | bool (b : Bool)
deriving DecidableEq, Repr

/-- JavaScript `Number()` coercion on the scalars above; `none` models `NaN`.
`Number(null) = 0`, booleans coerce to 0/1, `undefined` is `NaN`. -/
def toNumber : RawVal → Option ℚ
  | .num q => some q
  | .null => some 0
  | .bool b => some (if b then 1 else 0)
  | .undef => none

/-- The `clean` helper of `App.processAndRender`:
`arr.map(Number).filter(n => !isNaN(n) && n >= minValid)`, with a non-array or
missing field (`none`) becoming the empty list. -/
def cleanArr (arr : Option (List RawVal)) (minValid : ℚ) : List ℚ :=
  match arr with
  | none => []
  | some l =>
    l.filterMap (fun v =>
      match toNumber v with
      | some q => if minValid ≤ q then some q else none
      | none => none)

/-- One incoming draw record before normalization. -/
structure RawRecord where
  period : Int
  date : Int
  numbers : Option (List RawVal)
  numbers_size : Option (List RawVal)
deriving Repr

/-- One draw record after normalization. -/
structure NormRecord where
  period : Int
  date : Int
  numbers : List ℚ
  numbers_size : List ℚ
deriving DecidableEq, Repr

/-- The minimum valid value used by the filter:
`(gameDef && gameDef.type === 'digit') ? 0 : 1`. -/
def minValidFor (gd : Option GameDef) : ℚ :=
  match gd with
  | some gd => if gd.gtype = "digit" then 0 else 1
  | none => 1

/-- The per-record body of `App.processAndRender`: clean both number arrays
against the game's minimum, then truncate (`today` type to 5 elements, `digit`
type to `gameDef.count`, other types left at natural length). -/
def normalizeRecord (gd : Option GameDef) (r : RawRecord) : NormRecord :=
  let m := minValidFor gd
  let nums := cleanArr r.numbers m
  let numsSize := cleanArr r.numbers_size m
  match gd with
  | some g =>
    if g.gtype = "today" then
      ⟨r.period, r.date, nums.take 5, numsSize.take 5⟩
    else if g.gtype = "digit" then
      ⟨r.period, r.date, nums.take g.count, numsSize.take g.count⟩
    else
      ⟨r.period, r.date, nums, numsSize⟩
  | none => ⟨r.period, r.date, nums, numsSize⟩

/-! ## Freshness evaluation (`App.checkSystemStatus`) -/

/-- The displayable system status: `success`, or `error` carrying the most
recent known head date (`none` rendered as the "no data" text). -/
inductive SysStatus where
  | success
  | error (latest : Option Int)
deriving DecidableEq, Repr

/-- The first (`[0]`) record's date of each nonempty game timeline — the only
dates `App.checkSystemStatus` inspects. -/
def headDates (raw : List (String × List NormRecord)) : List Int :=
  raw.filterMap (fun p => p.2.head?.map (fun r => r.date))

/-- One step of the running-maximum tracking
(`if (!latestDateObj || lastDate > latestDateObj) latestDateObj = lastDate`):
the first date initializes, a strictly later date replaces. -/
def maxStep (acc : Option Int) (d : Int) : Option Int :=
  match acc with
  | none => some d
  | some m => if m < d then some d else some m

/-- Running maximum over a list of dates, first maximum kept on ties, exactly
as the status loop tracks it. -/
def maxDate? (l : List Int) : Option Int :=
  l.foldl maxStep none

/-- Every date of every record of every game, used to state what "the most
recent known date" means independently of the per-game ordering. -/
def allDates (raw : List (String × List NormRecord)) : List Int :=
  raw.foldr (fun p acc => p.2.map (fun r => r.date) ++ acc) []

/-- Total record count across games. -/
def totalCount (raw : List (String × List NormRecord)) : Nat :=
  raw.foldl (fun acc p => acc + p.2.length) 0

/-- `App.checkSystemStatus`: `success` when some nonempty game's first record
is dated within the trailing 3 days of `now` and the total record count is
nonzero; otherwise `error` with the most recent first-record date. -/
def checkSystemStatus (now : Int) (raw : List (String × List NormRecord)) :
    SysStatus :=
  let latest := maxDate? (headDates raw)
  let hasLatest := (headDates raw).any (fun d => decide (now - 3 ≤ d))
  if totalCount raw = 0 ∨ hasLatest = false then .error latest
  else .success

/-! ## Merge passes (`App.initFetch` with `mergeLotteryData`) -/

/-- One draw record as the merge engine keys it: its period, date, and
numbers. -/
structure MRec where
  period : Int
  date : Int
  numbers : List Int
deriving DecidableEq, Repr

/-- Modelled from the spec: the per-period override step of `mergeLotteryData`
(`utils.js`, not among the visible sources) — a record from a later source
entirely replaces an earlier record with the same period, otherwise it is
appended. -/
def upsert : List MRec → MRec → List MRec
  | [], r => [r]
  | x :: xs, r =>
    if x.period = r.period then r :: xs else x :: upsert xs r

/-- Modelled from the spec: folding one source batch into the accumulated
per-game timeline, later records of the batch overriding earlier ones. -/
def mergeBatch (acc : List MRec) (batch : List MRec) : List MRec :=
  batch.foldl upsert acc

/-- Modelled from the spec: combining source batches in ascending precedence
order, each later batch overriding earlier ones per period. -/
def mergeSources (srcs : List (List MRec)) : List MRec :=
  srcs.foldl mergeBatch []

/-- The initial merge pass as `App.initFetch` invokes it: baseline, then the
archive batches, then the local cache (the live slot is `null`). -/
def initialPass (base : List MRec) (archives : List (List MRec))
    (cache : List MRec) : List MRec :=
  mergeSources ([base] ++ archives ++ [cache])

/-- The refresh merge pass as `App.initFetch` invokes it: baseline, then the
archive batches, then the live batch — passed in the cache slot, with the
live slot again `null`; the local cache is not an input of this pass. -/
def refreshPass (base : List MRec) (archives : List (List MRec))
    (live : List MRec) : List MRec :=
  mergeSources ([base] ++ archives ++ [live])

/-- First record with the given period in a merged timeline. -/
def lookupPeriod (l : List MRec) (p : Int) : Option MRec :=
  l.find? (fun x => decide (x.period = p))

/-- Last record with the given period in one source batch — the one that
survives the per-period override when the batch is folded in. -/
def findLastPeriod (batch : List MRec) (p : Int) : Option MRec :=
  batch.foldl (fun a r => if r.period = p then some r else a) none

/-! ## Next scheduled draw date (`App.getNextDrawDate`) -/

/-- The localized weekday labels (`['日', ..., '六']`, indexed by
`getDay()`). -/
def weekMap : List String := ["日", "一", "二", "三", "四", "五", "六"]

/-- Result of the next-draw computation: the `"--"` sentinel, or a calendar
date (absolute day number, with weekday `day % 7`, Sunday = 0) plus its
localized weekday label. -/
inductive NextDraw where
  | unscheduled
  | drawDate (day : Nat) (label : String)
deriving DecidableEq, Repr

/-- `App.getNextDrawDate`: for an absent or empty `drawDays` return the
sentinel; otherwise take the first listed weekday strictly greater than
today's weekday, and when none exists wrap to the first listed weekday of
next week (`(7 - currentDay) + drawDays[0]`). -/
def getNextDrawDate (drawDays : Option (List Nat)) (today : Nat) : NextDraw :=
  match drawDays with
  | none => .unscheduled
  | some ds =>
    match ds with
    | [] => .unscheduled
    | d0 :: _ =>
      let currentDay := today % 7
      let daysToAdd :=
        match ds.find? (fun d => decide (currentDay < d)) with
        | some nd => nd - currentDay
        | none => (7 - currentDay) + d0
      let n := today + daysToAdd
      .drawDate n (weekMap.getD (n % 7) "")

/-! ## Pack expansion (`PredictionEngine.expandPack`) -/

/-- Modelled from the spec: `PredictionEngine.expandPack`
(`services/prediction-engine.js`, not among the visible sources) —
deterministically enumerate every ticket of `gameDef.count` numbers drawable
from the candidate pool; a pool smaller than `count` yields the empty
sequence. -/
def expandPack (pool : List Int) (gd : GameDef) : List (List Int) :=
  List.sublistsLen gd.count pool

/-! ## Helper lemmas -/

theorem objGet_append (a b : List (String × JsVal)) (k : String) :
    objGet (a ++ b) k =
      match objGet b k with
      | some v => some v
      | none => objGet a k := by
  induction a with
  | nil =>
    simp only [List.nil_append]
    cases objGet b k <;> simp [objGet]
  | cons p rest ih =>
    show (match objGet (rest ++ b) k with
      | some v => some v
      | none => if p.1 = k then some p.2 else none) = _
    rw [ih]
    cases hb : objGet b k <;> cases hr : objGet rest k <;>
      simp [objGet, hb, hr]

theorem selectAlgo_eq_none (A : Algos) (s : String) (h : s ∉ schoolsList) :
    selectAlgo A s = none := by
  simp only [schoolsList, List.mem_cons, List.not_mem_nil, or_false] at h
  push_neg at h
  obtain ⟨h1, h2, h3, h4⟩ := h
  simp [selectAlgo, h1, h2, h3, h4]

/-- Evaluation of the handler once the presence check is known to pass with a
string `mode`: the remaining behaviour is the game lookup, the school switch
and the shaping of the strategy outcome. -/
theorem predict_eval_string_mode (A : Algos) (now : String)
    (req : PredictRequest) (g s ms : String)
    (hg : req.game = some g) (hs : req.school = some s)
    (hm : req.mode = .vStr ms)
    (hg1 : g ≠ "") (hs1 : s ≠ "") (hm1 : ms ≠ "") :
    predict A now req =
      match lookupGame g with
      | none => .invalidGame g gamesList
      | some gd =>
        match selectAlgo A s with
        | none => .invalidSchool s schoolsList
        | some f =>
          match f (mkParams req gd ms) with
          | .throws => .internalError
          | .arr ts => .pack ts g s ms ts.length now
          | .obj r => .single r.numbers r.groupReason
              (r.metadata ++ dispatcherMeta g s ms now) := by
  simp only [predict, hg, hs, hm, Option.getD_some]
  rw [if_neg (by simp [truthyOptStr, jsTruthy, hg1, hs1, hm1])]

/-- Evaluation of the handler on a fully valid request: the response is the
shaping of the selected strategy's outcome. -/
theorem predict_eval_valid (A : Algos) (now : String) (req : PredictRequest)
    (g s ms : String) (gd : GameDef) (f : AlgoParams → StrategyOutcome)
    (hg : req.game = some g) (hs : req.school = some s)
    (hm : req.mode = .vStr ms)
    (hg1 : g ≠ "") (hs1 : s ≠ "") (hm1 : ms ≠ "")
    (hgd : lookupGame g = some gd) (hf : selectAlgo A s = some f) :
    predict A now req =
      match f (mkParams req gd ms) with
      | .throws => .internalError
      | .arr ts => .pack ts g s ms ts.length now
      | .obj r => .single r.numbers r.groupReason
          (r.metadata ++ dispatcherMeta g s ms now) := by
  rw [predict_eval_string_mode A now req g s ms hg hs hm hg1 hs1 hm1, hgd, hf]

/-! ## Concrete instances used by witnesses and counterexamples -/

/-- A sample single selection. -/
def selA : SingleSel := ⟨[⟨7, none⟩], none, []⟩

/-- Another sample single selection. -/
def selB : SingleSel := ⟨[⟨8, some "hot"⟩], some "balanced spread", []⟩

/-- A strategy table whose `balance` strategy returns a two-ticket array. -/
def packAlgos : Algos :=
  ⟨fun _ => .arr [selA, selB], fun _ => .throws, fun _ => .throws,
   fun _ => .throws⟩

/-- A strategy table whose `balance` strategy returns a single selection whose
own metadata already binds the key `game` (to `"X"`). -/
def metaAlgos : Algos :=
  ⟨fun _ => .obj ⟨[], none, [("game", .vStr "X")]⟩, fun _ => .throws,
   fun _ => .throws, fun _ => .throws⟩

/-- A request with valid game and school, `mode = 'pack_x'`. -/
def reqPack : PredictRequest :=
  ⟨some "今彩539", some "balance", .vStr "pack_x", .vUndef, .vUndef, none,
   none, none, .vUndef⟩

/-- A request with valid game and school, `mode = 'single'`. -/
def reqSingle : PredictRequest :=
  ⟨some "大樂透", some "balance", .vStr "single", .vUndef, .vUndef, none,
   none, none, .vUndef⟩

/-- A request with a valid game, an unknown school, and the numeric mode
`42`. -/
def reqBadSchool : PredictRequest :=
  ⟨some "大樂透", some "bogus", .vNum 42, .vUndef, .vUndef, none, none, none,
   .vUndef⟩

/-- A request with valid game and school and the numeric mode `42`. -/
def reqNumMode : PredictRequest :=
  ⟨some "大樂透", some "balance", .vNum 42, .vUndef, .vUndef, none, none,
   none, .vUndef⟩

/-! ## C1 — dispatcher response shaping -/

/-- C1: for every request that passes validation (present nonempty `game`,
`school`, string `mode`, known game, registered school), a strategy returning
an array yields the pack response whose `tickets` is that array and whose
metadata `count` is the array's length; a strategy returning a single object
yields the single-selection response, which carries no `tickets` field. -/
theorem c1_dispatch_shape (A : Algos) (now : String) (req : PredictRequest)
    (g s ms : String) (gd : GameDef) (f : AlgoParams → StrategyOutcome)
    (hg : req.game = some g) (hs : req.school = some s)
    (hm : req.mode = .vStr ms)
    (hg1 : g ≠ "") (hs1 : s ≠ "") (hm1 : ms ≠ "")
    (hgd : lookupGame g = some gd) (hf : selectAlgo A s = some f) :
    (∀ ts, f (mkParams req gd ms) = .arr ts →
        predict A now req = .pack ts g s ms ts.length now ∧
        hasTickets (predict A now req) = true) ∧
    (∀ r, f (mkParams req gd ms) = .obj r →
        predict A now req = .single r.numbers r.groupReason
          (r.metadata ++ dispatcherMeta g s ms now) ∧
        hasTickets (predict A now req) = false) := by
  have he := predict_eval_valid A now req g s ms gd f hg hs hm hg1 hs1 hm1
    hgd hf
  constructor
  · intro ts hts
    rw [hts] at he
    exact ⟨he, by rw [he]; rfl⟩
  · intro r hr
    rw [hr] at he
    exact ⟨he, by rw [he]; rfl⟩

/-- Witness for C1 at a concrete pack request. -/
theorem c1_dispatch_shape_witness :
    predict packAlgos "T" reqPack =
      .pack [selA, selB] "今彩539" "balance" "pack_x" 2 "T" :=
  ((c1_dispatch_shape packAlgos "T" reqPack "今彩539" "balance" "pack_x"
      ⟨"lotto", 39, 5, none, some false, some [1, 2, 3, 4, 5, 6]⟩
      packAlgos.algoBalance rfl rfl rfl (by decide) (by decide) (by decide)
      (by decide) rfl).1 [selA, selB] rfl).1

/-! ## C2 — input validation -/

/-- C2 (amended): a request with a falsy `game`, `school` or `mode` fails with
the missing-parameter error naming the required fields before any strategy
runs; a truthy unknown `game` fails with the unknown-game error enumerating
the legal games; an unknown `school` fails with the unknown-school error
enumerating the legal schools, provided `mode` is a string — with a truthy
non-string `mode` the handler instead throws at `mode.startsWith` (see the
counterexample and C10). -/
theorem c2_validation (A : Algos) (now : String) (req : PredictRequest) :
    ((!truthyOptStr req.game || !truthyOptStr req.school ||
        !jsTruthy req.mode) = true →
      predict A now req = .missingParams ["game", "school", "mode"]) ∧
    (∀ g, req.game = some g → g ≠ "" →
      truthyOptStr req.school = true → jsTruthy req.mode = true →
      lookupGame g = none →
      predict A now req = .invalidGame g gamesList) ∧
    (∀ g s ms gd, req.game = some g → req.school = some s →
      req.mode = .vStr ms → g ≠ "" → s ≠ "" → ms ≠ "" →
      lookupGame g = some gd → s ∉ schoolsList →
      predict A now req = .invalidSchool s schoolsList) := by
  refine ⟨?_, ?_, ?_⟩
  · intro h
    simp only [predict]
    rw [if_pos]
    exact h
  · intro g hg hg1 hsch hmode hnone
    have hgt : truthyOptStr (some g) = true := by simp [truthyOptStr, hg1]
    simp only [predict, hg, Option.getD_some]
    rw [if_neg (by simp [hgt, hsch, hmode]), hnone]
  · intro g s ms gd hg hs hm hg1 hs1 hm1 hgd hns
    rw [predict_eval_string_mode A now req g s ms hg hs hm hg1 hs1 hm1, hgd,
      selectAlgo_eq_none A s hns]

/-- Witness for C2 at concrete invalid requests (absent field, unknown game,
unknown school with string mode). -/
theorem c2_validation_witness :
    predict packAlgos "T"
        ⟨none, some "balance", .vStr "single", .vUndef, .vUndef, none, none,
         none, .vUndef⟩ =
      .missingParams ["game", "school", "mode"] ∧
    predict packAlgos "T"
        ⟨some "樂透樂", some "balance", .vStr "single", .vUndef, .vUndef,
         none, none, none, .vUndef⟩ =
      .invalidGame "樂透樂" gamesList ∧
    predict packAlgos "T"
        ⟨some "大樂透", some "bogus", .vStr "single", .vUndef, .vUndef, none,
         none, none, .vUndef⟩ =
      .invalidSchool "bogus" schoolsList :=
  ⟨(c2_validation packAlgos "T" _).1 (by decide),
   (c2_validation packAlgos "T" _).2.1 "樂透樂" rfl (by decide) (by decide)
     (by decide) (by decide),
   (c2_validation packAlgos "T" _).2.2 "大樂透" "bogus" "single"
     ⟨"lotto", 49, 6, none, some true, some [2, 5]⟩ rfl rfl rfl (by decide)
     (by decide) (by decide) (by decide) (by decide)⟩

/-- C2 counterexample: a request whose `school` is unknown but whose `mode` is
the truthy non-string `42` is answered with the generic internal failure, not
with any `InvalidRequest` validation error: `mode.startsWith` throws while the
params bundle is built, before the school switch runs. -/
theorem c2_counterexample :
    predict packAlgos "T" reqBadSchool = .internalError ∧
    isInvalidRequest (predict packAlgos "T" reqBadSchool) = false := by
  constructor <;> rfl

/-! ## C10 — truthy non-string mode reaches the catch block -/

/-- C10: for a request with valid `game` and `school` and the numeric mode
`42`, presence validation passes (all three fields truthy, the game known,
the school registered), yet the handler answers with the generic internal
failure rather than any validation error, whatever the strategies are:
evaluating `mode.startsWith` throws first. -/
theorem c10_nonstring_mode (A : Algos) (now : String) :
    (truthyOptStr reqNumMode.game && truthyOptStr reqNumMode.school &&
        jsTruthy reqNumMode.mode) = true ∧
    (lookupGame "大樂透").isSome = true ∧
    selectAlgo A "balance" = some A.algoBalance ∧
    predict A now reqNumMode = .internalError ∧
    isInvalidRequest (predict A now reqNumMode) = false :=
  ⟨by decide, by decide, rfl, rfl, rfl⟩

/-! ## C6 — single-selection metadata merging -/

/-- C6 (amended): for a single-selection strategy result the response metadata
is the strategy's `metadata` merged with the request-derived entries, and on a
key conflict the dispatcher's `game`, `school`, `mode` and the forcibly
appended `timestamp`/`version` stamps win; every other strategy metadata key
is preserved. -/
theorem c6_single_metadata (A : Algos) (now : String) (req : PredictRequest)
    (g s ms : String) (gd : GameDef) (f : AlgoParams → StrategyOutcome)
    (r : SingleSel)
    (hg : req.game = some g) (hs : req.school = some s)
    (hm : req.mode = .vStr ms)
    (hg1 : g ≠ "") (hs1 : s ≠ "") (hm1 : ms ≠ "")
    (hgd : lookupGame g = some gd) (hf : selectAlgo A s = some f)
    (hr : f (mkParams req gd ms) = .obj r) :
    predict A now req = .single r.numbers r.groupReason
      (r.metadata ++ dispatcherMeta g s ms now) ∧
    (∀ k, objGet (r.metadata ++ dispatcherMeta g s ms now) k =
      if k = "game" then some (.vStr g)
      else if k = "school" then some (.vStr s)
      else if k = "mode" then some (.vStr ms)
      else if k = "timestamp" then some (.vStr now)
      else if k = "version" then some (.vStr "2.0.0")
      else objGet r.metadata k) := by
  constructor
  · have he := predict_eval_valid A now req g s ms gd f hg hs hm hg1 hs1 hm1
      hgd hf
    rw [hr] at he
    exact he
  · intro k
    rw [objGet_append]
    by_cases h1 : k = "game"
    · subst h1; simp [dispatcherMeta, objGet]
    by_cases h2 : k = "school"
    · subst h2; simp [dispatcherMeta, objGet]
    by_cases h3 : k = "mode"
    · subst h3; simp [dispatcherMeta, objGet]
    by_cases h4 : k = "timestamp"
    · subst h4; simp [dispatcherMeta, objGet]
    by_cases h5 : k = "version"
    · subst h5; simp [dispatcherMeta, objGet]
    simp [dispatcherMeta, objGet, h1, h2, h3, h4, h5, Ne.symm h1, Ne.symm h2,
      Ne.symm h3, Ne.symm h4, Ne.symm h5]

/-- Witness for C6 at a concrete single-selection request. -/
theorem c6_single_metadata_witness :
    predict metaAlgos "T" reqSingle =
      .single [] none ([("game", .vStr "X")] ++
        dispatcherMeta "大樂透" "balance" "single" "T") :=
  (c6_single_metadata metaAlgos "T" reqSingle "大樂透" "balance" "single"
    ⟨"lotto", 49, 6, none, some true, some [2, 5]⟩ metaAlgos.algoBalance
    ⟨[], none, [("game", .vStr "X")]⟩ rfl rfl rfl (by decide) (by decide)
    (by decide) (by decide) rfl rfl).1

/-- C6 counterexample: a strategy whose own metadata binds `game` to `"X"`
does not survive the merge — the response metadata's `game` is the
request-derived `大樂透`, because the dispatcher's entries are spread after
the strategy's, refuting "the strategy result's own metadata keys win". -/
theorem c6_counterexample :
    predict metaAlgos "T" reqSingle =
      .single [] none ([("game", .vStr "X")] ++
        dispatcherMeta "大樂透" "balance" "single" "T") ∧
    objGet ([("game", .vStr "X")] ++
        dispatcherMeta "大樂透" "balance" "single" "T") "game" =
      some (.vStr "大樂透") ∧
    JsVal.vStr "大樂透" ≠ JsVal.vStr "X" := by
  refine ⟨rfl, by decide, by decide⟩

/-! ## C3 — jackpot refresh -/

theorem mem_insertByDateDesc {l : List LiveRec} {r x : LiveRec} :
    x ∈ insertByDateDesc l r ↔ x ∈ l ∨ x = r := by
  induction l with
  | nil => simp [insertByDateDesc]
  | cons a as ih =>
    simp only [insertByDateDesc]
    split
    · simp only [List.mem_cons, ih]
      tauto
    · simp only [List.mem_cons]
      tauto

theorem mem_foldl_insertByDateDesc (l acc : List LiveRec) (x : LiveRec) :
    x ∈ l.foldl insertByDateDesc acc ↔ x ∈ acc ∨ x ∈ l := by
  induction l generalizing acc with
  | nil => simp
  | cons a as ih =>
    rw [List.foldl_cons, ih, mem_insertByDateDesc]
    simp only [List.mem_cons]
    tauto

theorem mem_sortByDateDesc {l : List LiveRec} {x : LiveRec} :
    x ∈ sortByDateDesc l ↔ x ∈ l := by
  rw [sortByDateDesc, mem_foldl_insertByDateDesc]
  simp

theorem pairwise_insertByDateDesc {l : List LiveRec} (r : LiveRec)
    (h : List.Pairwise (fun a b => b.date ≤ a.date) l) :
    List.Pairwise (fun a b => b.date ≤ a.date) (insertByDateDesc l r) := by
  induction l with
  | nil => simp [insertByDateDesc]
  | cons a as ih =>
    rw [List.pairwise_cons] at h
    obtain ⟨ha, has⟩ := h
    simp only [insertByDateDesc]
    split
    · rename_i hle
      rw [List.pairwise_cons]
      refine ⟨?_, ih has⟩
      intro b hb
      rcases mem_insertByDateDesc.mp hb with hb | rfl
      · exact ha b hb
      · exact hle
    · rename_i hgt
      push_neg at hgt
      rw [List.pairwise_cons]
      refine ⟨?_, List.pairwise_cons.mpr ⟨ha, has⟩⟩
      intro b hb
      rcases List.mem_cons.mp hb with rfl | hb
      · exact le_of_lt hgt
      · exact le_trans (ha b hb) (le_of_lt hgt)

theorem pairwise_foldl_insertByDateDesc (l acc : List LiveRec)
    (h : List.Pairwise (fun a b => b.date ≤ a.date) acc) :
    List.Pairwise (fun a b => b.date ≤ a.date)
      (l.foldl insertByDateDesc acc) := by
  induction l generalizing acc with
  | nil => exact h
  | cons a as ih =>
    rw [List.foldl_cons]
    exact ih _ (pairwise_insertByDateDesc a h)

theorem pairwise_sortByDateDesc (l : List LiveRec) :
    List.Pairwise (fun a b => b.date ≤ a.date) (sortByDateDesc l) :=
  pairwise_foldl_insertByDateDesc l [] (List.Pairwise.nil)

/-- C3 (amended): for every game of the live batch with at least one record,
the refresh inspects a most-recent-by-date record and updates the JackpotTable
entry to that record's jackpot exactly when it is present and positive;
otherwise the entry keeps its previous value — an older record's positive
jackpot never determines it, and only live records are consulted. -/
theorem c3_jackpot_refresh (prev : Option Int) (recs : List LiveRec)
    (hne : recs ≠ []) :
    ∃ latest, latest ∈ recs ∧ (∀ r ∈ recs, r.date ≤ latest.date) ∧
      updateJackpot prev recs =
        (match latest.jackpot with
         | some j => if 0 < j then some j else prev
         | none => prev) := by
  obtain ⟨x, hx⟩ : ∃ x, x ∈ recs := by
    cases recs with
    | nil => exact absurd rfl hne
    | cons a as => exact ⟨a, List.mem_cons_self a as⟩
  have hx' : x ∈ sortByDateDesc recs := mem_sortByDateDesc.mpr hx
  obtain ⟨latest, rest, hsort⟩ : ∃ a as, sortByDateDesc recs = a :: as := by
    cases hs : sortByDateDesc recs with
    | nil => rw [hs] at hx'; cases hx'
    | cons a as => exact ⟨a, as, rfl⟩
  have hpw := pairwise_sortByDateDesc recs
  rw [hsort, List.pairwise_cons] at hpw
  refine ⟨latest, ?_, ?_, ?_⟩
  · exact mem_sortByDateDesc.mp (hsort ▸ List.mem_cons_self latest rest)
  · intro r hr
    have hr' : r ∈ sortByDateDesc recs := mem_sortByDateDesc.mpr hr
    rw [hsort] at hr'
    rcases List.mem_cons.mp hr' with rfl | hr'
    · exact le_refl _
    · exact hpw.1 r hr'
  · have hemp : recs.isEmpty = false := by
      cases recs with
      | nil => exact absurd rfl hne
      | cons a as => rfl
    rw [updateJackpot, hemp]
    simp only [Bool.false_eq_true, if_false, hsort, List.head?]

/-- Witness for C3 at a one-record live batch with a positive jackpot. -/
theorem c3_jackpot_refresh_witness :
    ∃ latest, latest ∈ [(⟨5, some 100⟩ : LiveRec)] ∧
      (∀ r ∈ [(⟨5, some 100⟩ : LiveRec)], r.date ≤ latest.date) ∧
      updateJackpot none [(⟨5, some 100⟩ : LiveRec)] =
        (match latest.jackpot with
         | some j => if 0 < j then some j else none
         | none => none) :=
  c3_jackpot_refresh none [⟨5, some 100⟩] (by decide)

/-- C3 counterexample: live records dated 1 (jackpot 500) and 2 (jackpot 0).
The claim prescribes the jackpot of the most recent record among those with a
positive jackpot (500); the code looks only at the most recent record overall,
whose jackpot 0 is falsy, and leaves the entry unchanged (`none`). -/
theorem c3_counterexample :
    updateJackpot none [⟨1, some 500⟩, ⟨2, some 0⟩] = none ∧
    claimJackpot none [⟨1, some 500⟩, ⟨2, some 0⟩] = some 500 ∧
    (none : Option Int) ≠ some 500 := by
  refine ⟨rfl, rfl, by decide⟩

/-! ## C4 — normalization bounds -/

theorem mem_cleanArr {l : List RawVal} {m q : ℚ} :
    q ∈ cleanArr (some l) m ↔ ∃ v ∈ l, toNumber v = some q ∧ m ≤ q := by
  simp only [cleanArr, List.mem_filterMap]
  constructor
  · rintro ⟨v, hv, hf⟩
    refine ⟨v, hv, ?_⟩
    cases ht : toNumber v with
    | none => rw [ht] at hf; simp at hf
    | some q' =>
      rw [ht] at hf
      by_cases hm : m ≤ q'
      · simp only [hm, if_true] at hf
        simp only [Option.some.injEq] at hf
        subst hf
        exact ⟨rfl, hm⟩
      · simp [hm] at hf
  · rintro ⟨v, hv, ht, hm⟩
    refine ⟨v, hv, ?_⟩
    rw [ht]
    simp [hm]

theorem cleanArr_lower_bound {arr : Option (List RawVal)} {m q : ℚ}
    (h : q ∈ cleanArr arr m) : m ≤ q := by
  cases arr with
  | none => cases h
  | some l =>
    obtain ⟨v, _, _, hm⟩ := mem_cleanArr.mp h
    exact hm

/-- C4 (amended): after normalization every element of `numbers` and
`numbers_size` is a numeric value that is at least the game's minimum valid
value (0 for `digit` games, 1 otherwise); an element survives the cleaning
pass exactly when its `Number()` coercion succeeds and meets that minimum; a
missing or non-array field becomes the empty sequence.  No upper-range or
integrality restriction is applied. -/
theorem c4_normalization (gd : Option GameDef) (r : RawRecord) :
    (∀ q ∈ (normalizeRecord gd r).numbers, minValidFor gd ≤ q) ∧
    (∀ q ∈ (normalizeRecord gd r).numbers_size, minValidFor gd ≤ q) ∧
    (r.numbers = none → (normalizeRecord gd r).numbers = []) ∧
    (r.numbers_size = none → (normalizeRecord gd r).numbers_size = []) ∧
    (∀ l q, q ∈ cleanArr (some l) (minValidFor gd) ↔
      ∃ v ∈ l, toNumber v = some q ∧ minValidFor gd ≤ q) := by
  have hnums : (normalizeRecord gd r).numbers =
      (cleanArr r.numbers (minValidFor gd)).take
        ((normalizeRecord gd r).numbers.length) ∧
    (normalizeRecord gd r).numbers_size =
      (cleanArr r.numbers_size (minValidFor gd)).take
        ((normalizeRecord gd r).numbers_size.length) := by
    rcases gd with _ | g
    · simp [normalizeRecord, List.take_length]
    · by_cases h1 : g.gtype = "today" <;> by_cases h2 : g.gtype = "digit" <;>
        simp [normalizeRecord, h1, h2, List.take_length, List.take_take]
  refine ⟨?_, ?_, ?_, ?_, fun l q => mem_cleanArr⟩
  · intro q hq
    rw [hnums.1] at hq
    exact cleanArr_lower_bound (List.take_subset _ _ hq)
  · intro q hq
    rw [hnums.2] at hq
    exact cleanArr_lower_bound (List.take_subset _ _ hq)
  · intro h
    rcases gd with _ | g
    · simp [normalizeRecord, h, cleanArr]
    · by_cases h1 : g.gtype = "today" <;> by_cases h2 : g.gtype = "digit" <;>
        simp [normalizeRecord, h, h1, h2, cleanArr]
  · intro h
    rcases gd with _ | g
    · simp [normalizeRecord, h, cleanArr]
    · by_cases h1 : g.gtype = "today" <;> by_cases h2 : g.gtype = "digit" <;>
        simp [normalizeRecord, h, h1, h2, cleanArr]

/-- Witness for C4: a kept element of a concrete 今彩539 record is above the
minimum, and a missing `numbers` field normalizes to the empty sequence. -/
theorem c4_normalization_witness :
    minValidFor (lookupGame "今彩539") ≤ (7 : ℚ) ∧
    (normalizeRecord (lookupGame "今彩539") ⟨2, 0, none, none⟩).numbers =
      [] :=
  ⟨(c4_normalization (lookupGame "今彩539")
        ⟨1, 0, some [.num 7], some []⟩).1 7 (by decide),
   (c4_normalization (lookupGame "今彩539") ⟨2, 0, none, none⟩).2.2.1 rfl⟩

/-- C4 counterexample: a 今彩539 record whose `numbers` is `[999]` keeps 999
after normalization although the game's range is 39 — the cleaning pass
applies no upper bound, refuting "every value lies within
[min, gameDef.range]". -/
theorem c4_counterexample :
    (normalizeRecord (lookupGame "今彩539")
        ⟨1, 0, some [.num 999], some []⟩).numbers = [(999 : ℚ)] ∧
    (lookupGame "今彩539").map (fun g => g.range) = some 39 ∧
    ¬ ((999 : ℚ) ≤ (39 : ℚ)) := by
  refine ⟨by decide, by decide, by decide⟩

/-! ## C5 — freshness evaluation -/

theorem head?_mem {α : Type} {l : List α} {a : α} (h : l.head? = some a) :
    a ∈ l := by
  cases l with
  | nil => cases h
  | cons x xs =>
    rw [List.head?_cons, Option.some.injEq] at h
    rw [← h]
    exact List.mem_cons_self x xs

theorem foldl_maxStep_some (l : List Int) (a : Int) :
    ∃ b, l.foldl maxStep (some a) = some b ∧ (b = a ∨ b ∈ l) ∧ a ≤ b ∧
      ∀ x ∈ l, x ≤ b := by
  induction l generalizing a with
  | nil => exact ⟨a, rfl, Or.inl rfl, le_refl a, by simp⟩
  | cons d ds ih =>
    rw [List.foldl_cons]
    by_cases had : a < d
    · have hstep : maxStep (some a) d = some d := by
        simp [maxStep, had]
      rw [hstep]
      obtain ⟨b, hb, hmem, hle, hall⟩ := ih d
      refine ⟨b, hb, ?_, ?_, ?_⟩
      · rcases hmem with rfl | hmem
        · exact Or.inr (List.mem_cons_self b ds)
        · exact Or.inr (List.mem_cons_of_mem d hmem)
      · exact le_trans (le_of_lt had) hle
      · intro x hx
        rcases List.mem_cons.mp hx with rfl | hx
        · exact hle
        · exact hall x hx
    · have hstep : maxStep (some a) d = some a := by
        simp [maxStep, had]
      rw [hstep]
      obtain ⟨b, hb, hmem, hle, hall⟩ := ih a
      refine ⟨b, hb, ?_, hle, ?_⟩
      · rcases hmem with rfl | hmem
        · exact Or.inl rfl
        · exact Or.inr (List.mem_cons_of_mem d hmem)
      · intro x hx
        rcases List.mem_cons.mp hx with rfl | hx
        · push_neg at had
          exact le_trans had hle
        · exact hall x hx

theorem maxDate?_some_spec (l : List Int) (hne : l ≠ []) :
    ∃ b, maxDate? l = some b ∧ b ∈ l ∧ ∀ x ∈ l, x ≤ b := by
  cases l with
  | nil => exact absurd rfl hne
  | cons d ds =>
    rw [maxDate?, List.foldl_cons]
    have hstep : maxStep none d = some d := rfl
    rw [hstep]
    obtain ⟨b, hb, hmem, hle, hall⟩ := foldl_maxStep_some ds d
    refine ⟨b, hb, ?_, ?_⟩
    · rcases hmem with rfl | hmem
      · exact List.mem_cons_self b ds
      · exact List.mem_cons_of_mem d hmem
    · intro x hx
      rcases List.mem_cons.mp hx with rfl | hx
      · exact hle
      · exact hall x hx

theorem maxDate?_of {l : List Int} {m : Int} (hm : m ∈ l)
    (hall : ∀ x ∈ l, x ≤ m) : maxDate? l = some m := by
  have hne : l ≠ [] := by
    intro h
    rw [h] at hm
    cases hm
  obtain ⟨b, hb, hbmem, hball⟩ := maxDate?_some_spec l hne
  have : b = m := le_antisymm (hall b hbmem) (hball m hm)
  rw [hb, this]

theorem mem_headDates {raw : List (String × List NormRecord)} {d : Int} :
    d ∈ headDates raw ↔
      ∃ p ∈ raw, ∃ h, p.2.head? = some h ∧ h.date = d := by
  simp only [headDates, List.mem_filterMap, Option.map_eq_some']

theorem mem_allDates {raw : List (String × List NormRecord)} {d : Int} :
    d ∈ allDates raw ↔ ∃ p ∈ raw, ∃ r ∈ p.2, r.date = d := by
  induction raw with
  | nil => simp [allDates]
  | cons p ps ih =>
    have hstep : allDates (p :: ps) =
        p.2.map (fun r => r.date) ++ allDates ps := rfl
    rw [hstep]
    simp only [List.mem_append, List.mem_map, ih, List.mem_cons]
    constructor
    · rintro (⟨r, hr, rfl⟩ | ⟨q, hq, r, hr, rfl⟩)
      · exact ⟨p, Or.inl rfl, r, hr, rfl⟩
      · exact ⟨q, Or.inr hq, r, hr, rfl⟩
    · rintro ⟨q, hq | hq, r, hr, rfl⟩
      · subst hq
        exact Or.inl ⟨r, hr, rfl⟩
      · exact Or.inr ⟨q, hq, r, hr, rfl⟩

theorem totalCount_add_init (raw : List (String × List NormRecord)) (n : Nat) :
    raw.foldl (fun acc p => acc + p.2.length) n = n + totalCount raw := by
  induction raw generalizing n with
  | nil => simp [totalCount]
  | cons p ps ih =>
    have hT : totalCount (p :: ps) = p.2.length + totalCount ps := by
      rw [totalCount, List.foldl_cons, ih, Nat.zero_add]
    rw [List.foldl_cons, ih, hT]
    omega

theorem totalCount_eq_zero {raw : List (String × List NormRecord)} :
    totalCount raw = 0 ↔ ∀ p ∈ raw, p.2 = [] := by
  induction raw with
  | nil => simp [totalCount]
  | cons p ps ih =>
    have hT : totalCount (p :: ps) = p.2.length + totalCount ps := by
      rw [totalCount, List.foldl_cons, totalCount_add_init, Nat.zero_add]
    rw [hT]
    simp only [Nat.add_eq_zero, List.length_eq_zero, ih, List.mem_cons]
    constructor
    · rintro ⟨h1, h2⟩ q (rfl | hq)
      · exact h1
      · exact h2 q hq
    · intro h
      exact ⟨h p (Or.inl rfl), fun q hq => h q (Or.inr hq)⟩

/-- C5: assuming each game's timeline is ordered newest-first (its first
record carries the game's maximal date — the Timeline invariant), the status
is `success` iff some game has a record dated within the trailing 3 days of
`now` and the total record count is nonzero; any `error` status carries the
maximum date over all records (`none` when no record exists). -/
theorem c5_freshness (now : Int) (raw : List (String × List NormRecord))
    (hdom : ∀ p ∈ raw, ∀ r ∈ p.2, ∀ h, p.2.head? = some h →
      r.date ≤ h.date) :
    (checkSystemStatus now raw = .success ↔
      ((∃ p ∈ raw, ∃ r ∈ p.2, now - 3 ≤ r.date) ∧ totalCount raw ≠ 0)) ∧
    (∀ d, checkSystemStatus now raw = .error d →
      d = maxDate? (allDates raw)) := by
  have hlink : ((headDates raw).any (fun d => decide (now - 3 ≤ d)) = true) ↔
      (∃ p ∈ raw, ∃ r ∈ p.2, now - 3 ≤ r.date) := by
    rw [List.any_eq_true]
    constructor
    · rintro ⟨d, hd, hfresh⟩
      rw [decide_eq_true_eq] at hfresh
      obtain ⟨p, hp, h, hh, rfl⟩ := mem_headDates.mp hd
      exact ⟨p, hp, h, head?_mem hh, hfresh⟩
    · rintro ⟨p, hp, r, hr, hfresh⟩
      obtain ⟨h, hh⟩ : ∃ h, p.2.head? = some h := by
        cases hl : p.2 with
        | nil => rw [hl] at hr; cases hr
        | cons x xs => exact ⟨x, rfl⟩
      refine ⟨h.date, mem_headDates.mpr ⟨p, hp, h, hh, rfl⟩, ?_⟩
      rw [decide_eq_true_eq]
      exact le_trans hfresh (hdom p hp r hr h hh)
  have hmaxeq : maxDate? (headDates raw) = maxDate? (allDates raw) := by
    by_cases hhd : headDates raw = []
    · have had : allDates raw = [] := by
        rw [List.eq_nil_iff_forall_not_mem]
        intro d hd
        obtain ⟨p, hp, r, hr, rfl⟩ := mem_allDates.mp hd
        obtain ⟨h, hh⟩ : ∃ h, p.2.head? = some h := by
          cases hl : p.2 with
          | nil => rw [hl] at hr; cases hr
          | cons x xs => exact ⟨x, rfl⟩
        have : h.date ∈ headDates raw :=
          mem_headDates.mpr ⟨p, hp, h, hh, rfl⟩
        rw [hhd] at this
        cases this
      rw [hhd, had]
    · obtain ⟨b, hb, hbmem, hball⟩ := maxDate?_some_spec _ hhd
      rw [hb]
      obtain ⟨p, hp, h, hh, rfl⟩ := mem_headDates.mp hbmem
      refine (maxDate?_of ?_ ?_).symm
      · exact mem_allDates.mpr ⟨p, hp, h, head?_mem hh, rfl⟩
      · intro x hx
        obtain ⟨q, hq, r, hr, rfl⟩ := mem_allDates.mp hx
        obtain ⟨h', hh'⟩ : ∃ h', q.2.head? = some h' := by
          cases hl : q.2 with
          | nil => rw [hl] at hr; cases hr
          | cons x xs => exact ⟨x, rfl⟩
        exact le_trans (hdom q hq r hr h' hh')
          (hball h'.date (mem_headDates.mpr ⟨q, hq, h', hh', rfl⟩))
  constructor
  · rw [checkSystemStatus]
    by_cases hcond : totalCount raw = 0 ∨
        ((headDates raw).any (fun d => decide (now - 3 ≤ d)) = false)
    · rw [if_pos hcond]
      simp only [reduceCtorEq, false_iff]
      rintro ⟨hfresh, htot⟩
      rcases hcond with h0 | h0
      · exact htot h0
      · rw [← hlink] at hfresh
        rw [h0] at hfresh
        cases hfresh
    · rw [if_neg hcond]
      push_neg at hcond
      obtain ⟨htot, hany⟩ := hcond
      rw [Bool.ne_false_iff] at hany
      simp only [true_iff]
      exact ⟨hlink.mp hany, htot⟩
  · intro d hd
    rw [checkSystemStatus] at hd
    split at hd
    · rw [SysStatus.error.injEq] at hd
      rw [← hd, hmaxeq]
    · cases hd

/-- Witness for C5: one game, one record dated `now − 2` is `success`; one
record dated `now − 4` is not (with `now = 100`). -/
theorem c5_freshness_witness :
    checkSystemStatus 100 [("a", [⟨1, 98, [], []⟩])] = .success ∧
    checkSystemStatus 100 [("a", [⟨1, 96, [], []⟩])] ≠ .success := by
  have hd98 : ∀ p ∈ [("a", [(⟨1, 98, [], []⟩ : NormRecord)])],
      ∀ r ∈ p.2, ∀ h, p.2.head? = some h → r.date ≤ h.date := by
    intro p hp r hr h hh
    fin_cases hp
    fin_cases hr
    simp only [List.head?_cons, Option.some.injEq] at hh
    subst hh
    exact le_refl _
  have hd96 : ∀ p ∈ [("a", [(⟨1, 96, [], []⟩ : NormRecord)])],
      ∀ r ∈ p.2, ∀ h, p.2.head? = some h → r.date ≤ h.date := by
    intro p hp r hr h hh
    fin_cases hp
    fin_cases hr
    simp only [List.head?_cons, Option.some.injEq] at hh
    subst hh
    exact le_refl _
  constructor
  · exact (c5_freshness 100 [("a", [⟨1, 98, [], []⟩])] hd98).1.mpr
      ⟨⟨("a", [⟨1, 98, [], []⟩]), by simp, ⟨1, 98, [], []⟩, by simp,
        by norm_num⟩, by decide⟩
  · intro hsucc
    have := (c5_freshness 100 [("a", [⟨1, 96, [], []⟩])] hd96).1.mp hsucc
    obtain ⟨⟨p, hp, r, hr, hfresh⟩, -⟩ := this
    fin_cases hp
    fin_cases hr
    simp only at hfresh
    omega

/-! ## C7 — merge passes and precedence -/

theorem lookupPeriod_upsert (l : List MRec) (r : MRec) (p : Int) :
    lookupPeriod (upsert l r) p =
      if r.period = p then some r else lookupPeriod l p := by
  induction l with
  | nil =>
    by_cases hrp : r.period = p <;>
      simp [upsert, lookupPeriod, hrp]
  | cons x xs ih =>
    by_cases hxr : x.period = r.period
    · have hup : upsert (x :: xs) r = r :: xs := by
        simp [upsert, hxr]
      rw [hup]
      by_cases hrp : r.period = p
      · simp [lookupPeriod, hrp]
      · have hxp : ¬ x.period = p := by rw [hxr]; exact hrp
        simp [lookupPeriod, hrp, hxp]
    · have hup : upsert (x :: xs) r = x :: upsert xs r := by
        simp [upsert, hxr]
      rw [hup]
      by_cases hxp : x.period = p
      · have hrp : ¬ r.period = p := by
          intro h
          exact hxr (hxp.trans h.symm)
        simp [lookupPeriod, hxp, hrp]
      · have hskip : ∀ l : List MRec,
            lookupPeriod (x :: l) p = lookupPeriod l p := by
          intro l
          simp only [lookupPeriod]
          rw [List.find?_cons_of_neg]
          simp [hxp]
        rw [hskip (upsert xs r), ih, hskip xs]

theorem findLastPeriod_foldl (bs : List MRec) (p : Int) (a : Option MRec) :
    bs.foldl (fun acc r => if r.period = p then some r else acc) a =
      match findLastPeriod bs p with
      | some r => some r
      | none => a := by
  induction bs generalizing a with
  | nil => simp [findLastPeriod]
  | cons b bs ih =>
    rw [List.foldl_cons]
    rw [ih]
    have hR : findLastPeriod (b :: bs) p =
        match findLastPeriod bs p with
        | some r => some r
        | none => if b.period = p then some b else none := by
      rw [findLastPeriod, List.foldl_cons]
      exact ih _
    rw [hR]
    cases findLastPeriod bs p <;> by_cases hb : b.period = p <;> simp [hb]

theorem lookupPeriod_mergeBatch (acc batch : List MRec) (p : Int) :
    lookupPeriod (mergeBatch acc batch) p =
      match findLastPeriod batch p with
      | some r => some r
      | none => lookupPeriod acc p := by
  induction batch generalizing acc with
  | nil => simp [mergeBatch, findLastPeriod]
  | cons b bs ih =>
    rw [mergeBatch, List.foldl_cons]
    have hL : (List.foldl upsert (upsert acc b) bs) =
        mergeBatch (upsert acc b) bs := rfl
    rw [hL, ih, lookupPeriod_upsert]
    have hR : findLastPeriod (b :: bs) p =
        match findLastPeriod bs p with
        | some r => some r
        | none => if b.period = p then some b else none := by
      rw [findLastPeriod, List.foldl_cons]
      exact findLastPeriod_foldl bs p _
    rw [hR]
    cases findLastPeriod bs p <;> by_cases hb : b.period = p <;> simp [hb]

theorem mergeSources_snoc (srcs : List (List MRec)) (last : List MRec) :
    mergeSources (srcs ++ [last]) = mergeBatch (mergeSources srcs) last := by
  rw [mergeSources, mergeSources, List.foldl_append, List.foldl_cons,
    List.foldl_nil]

/-- C7 (amended): the refresh pass merges the baseline, the archive batches
and the live batch — the local cache of the initial pass is not among its
inputs.  Per period, each pass's output is the last matching record of its
highest-precedence slot when that slot supplies the period (live for the
refresh pass, cache for the initial pass), and the baseline+archive merge
otherwise; so a live record replaces any lower-precedence record, while a
period supplied only by the local cache is present in the initial output but
absent from the refresh output. -/
theorem c7_refresh_pass (base : List MRec) (archives : List (List MRec))
    (cache live : List MRec) (p : Int) :
    (lookupPeriod (refreshPass base archives live) p =
      match findLastPeriod live p with
      | some r => some r
      | none => lookupPeriod (mergeSources ([base] ++ archives)) p) ∧
    (lookupPeriod (initialPass base archives cache) p =
      match findLastPeriod cache p with
      | some r => some r
      | none => lookupPeriod (mergeSources ([base] ++ archives)) p) := by
  constructor
  · rw [refreshPass, show [base] ++ archives ++ [live] =
      ([base] ++ archives) ++ [live] from by simp, mergeSources_snoc,
      lookupPeriod_mergeBatch]
  · rw [initialPass, show [base] ++ archives ++ [cache] =
      ([base] ++ archives) ++ [cache] from by simp, mergeSources_snoc,
      lookupPeriod_mergeBatch]

/-- C7 counterexample: with empty baseline and archives, a record of period 1
present only in the local cache is in the initial pass's output, but the
refresh pass (which replaces the cache slot with the live batch, here a
single period-2 record) does not contain period 1 — the refresh output does
not dominate the initial output. -/
theorem c7_counterexample :
    lookupPeriod (initialPass [] [] [⟨1, 10, [1]⟩]) 1 =
      some ⟨1, 10, [1]⟩ ∧
    lookupPeriod (refreshPass [] [] [⟨2, 11, [2]⟩]) 1 = none := by
  refine ⟨by decide, by decide⟩

/-! ## C8 — next scheduled draw date -/

/-- C8 (amended): with a nonempty `drawDays` of valid weekday indices, the
computed next draw falls strictly after today (a draw day equal to today's
weekday wraps to next week, not today), at most 7 days ahead, on a weekday
belonging to `drawDays`, labelled with its localized weekday name; an absent
or empty `drawDays` yields the unscheduled sentinel. -/
theorem c8_next_draw (ds : List Nat) (today : Nat)
    (hne : ds ≠ []) (hvalid : ∀ d ∈ ds, d ≤ 6) :
    (getNextDrawDate none today = .unscheduled) ∧
    (getNextDrawDate (some []) today = .unscheduled) ∧
    (∃ n, getNextDrawDate (some ds) today =
        .drawDate n (weekMap.getD (n % 7) "") ∧
      today < n ∧ n ≤ today + 7 ∧ n % 7 ∈ ds) := by
  refine ⟨rfl, rfl, ?_⟩
  obtain ⟨d0, ds', rfl⟩ : ∃ d0 ds', ds = d0 :: ds' := by
    cases ds with
    | nil => exact absurd rfl hne
    | cons a as => exact ⟨a, as, rfl⟩
  have hmod : today % 7 < 7 := Nat.mod_lt _ (by omega)
  have hmod7 : today % 7 ≤ today := Nat.mod_le _ _
  simp only [getNextDrawDate]
  cases hf : (d0 :: ds').find? (fun d => decide (today % 7 < d)) with
  | some nd =>
    have h1 : today % 7 < nd := by
      have := List.find?_some hf
      simpa using this
    have h2 : nd ≤ 6 := hvalid nd (List.mem_of_find?_eq_some hf)
    refine ⟨today + (nd - today % 7), rfl, by omega, by omega, ?_⟩
    have hmodeq : (today + (nd - today % 7)) % 7 = nd := by omega
    rw [hmodeq]
    exact List.mem_of_find?_eq_some hf
  | none =>
    have hall : ∀ d ∈ d0 :: ds', ¬ (today % 7 < d) := by
      intro d hd
      have := List.find?_eq_none.mp hf d hd
      simpa using this
    have h0 : d0 ≤ today % 7 := by
      have := hall d0 (List.mem_cons_self d0 ds')
      omega
    refine ⟨today + (7 - today % 7 + d0), rfl, by omega, by omega, ?_⟩
    have hmodeq : (today + (7 - today % 7 + d0)) % 7 = d0 := by omega
    rw [hmodeq]
    exact List.mem_cons_self d0 ds'

/-- Witness for C8 on the 大樂透 draw-day set `[2, 5]` with today ≡ weekday
3. -/
theorem c8_next_draw_witness :
    (getNextDrawDate none 3 = .unscheduled) ∧
    (getNextDrawDate (some []) 3 = .unscheduled) ∧
    (∃ n, getNextDrawDate (some [2, 5]) 3 =
        .drawDate n (weekMap.getD (n % 7) "") ∧
      3 < n ∧ n ≤ 3 + 7 ∧ n % 7 ∈ [2, 5]) :=
  c8_next_draw [2, 5] 3 (by decide) (by decide)

/-- C8 counterexample: `drawDays = [3]` with today's weekday 3 (take today to
be absolute day 3): the claim says a draw day equal to today's weekday yields
today (day 3), but the code's strict `d > currentDay` finds nothing and wraps
a full week to day 10. -/
theorem c8_counterexample :
    getNextDrawDate (some [3]) 3 = .drawDate 10 "三" ∧
    NextDraw.drawDate 10 "三" ≠ .drawDate 3 "三" := by
  refine ⟨rfl, by decide⟩

/-! ## C9 — pack expansion -/

/-- C9: pack expansion enumerates exactly the size-`count` sub-selections of
the candidate pool; a pool smaller than `gameDef.count` yields the empty
sequence (no error value exists in the model), and a pool of exactly
`gameDef.count` elements yields the one ticket equal to the pool. -/
theorem c9_pack_expansion (pool : List Int) (gd : GameDef) :
    (∀ t, t ∈ expandPack pool gd ↔ t.Sublist pool ∧ t.length = gd.count) ∧
    (pool.length < gd.count → expandPack pool gd = []) ∧
    (pool.length = gd.count → expandPack pool gd = [pool]) := by
  refine ⟨fun t => List.mem_sublistsLen, fun h => ?_, fun h => ?_⟩
  · exact List.sublistsLen_of_length_lt h
  · rw [expandPack, ← h]
    have h1 : (List.sublistsLen pool.length pool).length = 1 := by
      rw [List.length_sublistsLen, Nat.choose_self]
    have h2 : pool ∈ List.sublistsLen pool.length pool :=
      List.mem_sublistsLen.mpr ⟨List.Sublist.refl pool, rfl⟩
    obtain ⟨a, ha⟩ := List.length_eq_one.mp h1
    rw [ha] at h2 ⊢
    rw [List.mem_singleton] at h2
    rw [h2]

/-- Witness for C9 on the 今彩539 definition (`count = 5`): a 3-element pool
expands to nothing, a 5-element pool to exactly itself. -/
theorem c9_pack_expansion_witness :
    expandPack [1, 2, 3]
        ⟨"lotto", 39, 5, none, some false, some [1, 2, 3, 4, 5, 6]⟩ = [] ∧
    expandPack [10, 20, 30, 40, 50]
        ⟨"lotto", 39, 5, none, some false, some [1, 2, 3, 4, 5, 6]⟩ =
      [[10, 20, 30, 40, 50]] :=
  ⟨(c9_pack_expansion [1, 2, 3] _).2.1 (by decide),
   (c9_pack_expansion [10, 20, 30, 40, 50] _).2.2 (by decide)⟩
